import Mathlib

/-!
Verification of the NABIP association seed-data scripts.

The development shallowly embeds the two scripts the specification covers:
`scripts/generate_member_seed_data.py` (record generator) and
`scripts/import_to_supabase.py` (batch materializer).  Python strings are
modelled as `List Char`; machine-level randomness is modelled by explicit
oracle arguments supplying each drawn value; `datetime` values are modelled
as integers (a timestamp in days, with the fixed period `365`); Python
floats are modelled by exact rationals.  The regular expressions of
`split_into_batches` are embedded operationally: each of the three patterns
used by the script is deterministic once greedy/lazy preferences are worked
out (word characters, whitespace and the delimiters involved are pairwise
disjoint classes), and the embedding implements exactly that behaviour.
The character classes `\w` and `\s` are modelled at their ASCII core, which
covers every string the scripts produce.
-/

/-! ## Batch materializer: `import_to_supabase.split_into_batches`

The Python source:

```
inserts = re.findall(r'(INSERT INTO \w+.*?VALUES.*?);', sql_content, re.DOTALL)
for insert in inserts:
    match = re.match(r'(INSERT INTO \w+\s*\([^)]+\)\s*VALUES)\s*(.*)', insert, re.DOTALL)
    if match:
        header = match.group(1)
        values_part = match.group(2)
        value_sets = re.findall(r'\([^)]+\)', values_part)
        for i in range(0, len(value_sets), batch_size):
            batch = value_sets[i:i+batch_size]
            batch_sql = header + '\n' + ',\n'.join(batch) + ';'
            batches.append(batch_sql)
    else:
        batches.append(insert + ';')
```
-/

/-- Python's `\w` on the ASCII range: letters, digits and underscore. -/
def isWordChar (c : Char) : Bool :=
  c.isAlpha || c.isDigit || c == '_'

/-- Python's `\s` on the ASCII range: space, tab, newline, carriage return,
form feed and vertical tab. -/
def isSpaceChar (c : Char) : Bool :=
  c == ' ' || c == '\t' || c == '\n' || c == '\x0d' || c == '\x0c' || c == '\x0b'

/-- Match a literal: if `p` is a prefix of `s`, return the rest of `s`. -/
def dropLit : List Char → List Char → Option (List Char)
  | [], s => some s
  | _ :: _, [] => none
  | c :: cs, d :: ds => if c = d then dropLit cs ds else none

/-- Index of the first occurrence of the literal `pat` in `s`
(Python `str.find`), if any. -/
def findPat (pat : List Char) : List Char → Option Nat
  | [] => if (dropLit pat []).isSome then some 0 else none
  | c :: cs =>
    if (dropLit pat (c :: cs)).isSome then some 0
    else (findPat pat cs).map (· + 1)

/-- One backtracking attempt of `INSERT INTO \w+.*?VALUES.*?;` after the
literal, with the `\w+` group fixed to length `w`: lazily find `VALUES`
at or after offset `w` of `t`, then lazily find `;` after it.  Returns the
offset in `t` one past the `;`. -/
def tryWidth (t : List Char) (w : Nat) : Option Nat :=
  match findPat ("VALUES".toList) (t.drop w) with
  | none => none
  | some v =>
    match findPat ([';']) ((t.drop w).drop (v + 6)) with
    | none => none
    | some j => some (w + v + 6 + j + 1)

/-- Backtracking order of the greedy `\w+`: widths from `w` down to `1`,
first success wins.  (Trying later `VALUES` occurrences for a fixed width
never helps: if no `;` follows the first occurrence, none follows a later
one.) -/
def chooseWidth (t : List Char) : Nat → Option Nat
  | 0 => none
  | w + 1 =>
    match tryWidth t (w + 1) with
    | some e => some e
    | none => chooseWidth t w

/-- Try to match `(INSERT INTO \w+.*?VALUES.*?);` at the head of `s`
(Python leftmost-match attempt at one position).  On success, return the
captured group (without the `;`) and the remaining text after the `;`. -/
def matchInsertAt (s : List Char) : Option (List Char × List Char) :=
  match dropLit ("INSERT INTO ".toList) s with
  | none => none
  | some t =>
    let L := (t.takeWhile isWordChar).length
    if L = 0 then none
    else
      match chooseWidth t L with
      | none => none
      | some e => some ("INSERT INTO ".toList ++ t.take (e - 1), t.drop e)

/-- The scan of `re.findall`: leftmost non-overlapping matches, resuming
after each match; on failure the start position advances by one character.
The fuel argument is initialized with the length of the text, which
suffices because every step consumes at least one character. -/
def findInsertsGo : Nat → List Char → List (List Char)
  | 0, _ => []
  | _ + 1, [] => []
  | f + 1, c :: rest =>
    match matchInsertAt (c :: rest) with
    | some (cap, r) => cap :: findInsertsGo f r
    | none => findInsertsGo f rest

/-- `re.findall(r'(INSERT INTO \w+.*?VALUES.*?);', sql_content, re.DOTALL)`. -/
def findInserts (s : List Char) : List (List Char) :=
  findInsertsGo s.length s

/-- `re.match(r'(INSERT INTO \w+\s*\([^)]+\)\s*VALUES)\s*(.*)', insert, re.DOTALL)`:
the greedy runs are forced (word, space and delimiter characters are
disjoint classes), so the match is computed by maximal runs.  Returns
(group 1, group 2): the header through `VALUES`, and the values text. -/
def matchHeader (s : List Char) : Option (List Char × List Char) :=
  match dropLit ("INSERT INTO ".toList) s with
  | none => none
  | some t1 =>
    let w := t1.takeWhile isWordChar
    if w.isEmpty then none
    else
      let r1 := t1.dropWhile isWordChar
      let sp1 := r1.takeWhile isSpaceChar
      match r1.dropWhile isSpaceChar with
      | '(' :: r3 =>
        let inner := r3.takeWhile (fun c => !(c == ')'))
        if inner.isEmpty then none
        else
          match r3.drop inner.length with
          | ')' :: r5 =>
            let sp2 := r5.takeWhile isSpaceChar
            match dropLit ("VALUES".toList) (r5.dropWhile isSpaceChar) with
            | none => none
            | some r7 =>
              some ("INSERT INTO ".toList ++ w ++ sp1 ++ '(' :: inner
                      ++ ')' :: sp2 ++ "VALUES".toList,
                    r7.dropWhile isSpaceChar)
          | _ => none
      | _ => none

/-- The scan of `re.findall(r'\([^)]+\)', values_part)`: at `(`, the greedy
`[^)]+` takes the maximal run of non-`)` characters, which must be nonempty
and followed by `)`; otherwise the scan advances one character. -/
def findTuplesGo : Nat → List Char → List (List Char)
  | 0, _ => []
  | _ + 1, [] => []
  | f + 1, '(' :: rest =>
    let run := rest.takeWhile (fun c => !(c == ')'))
    if run.isEmpty then findTuplesGo f rest
    else
      match rest.drop run.length with
      | ')' :: r2 => ('(' :: run ++ [')']) :: findTuplesGo f r2
      | _ => findTuplesGo f rest
  | f + 1, _ :: rest => findTuplesGo f rest

/-- `re.findall(r'\([^)]+\)', values_part)`: the list of value-tuples the
script recovers from the values text. -/
def findTuples (s : List Char) : List (List Char) :=
  findTuplesGo s.length s

/-- `value_sets[i:i+batch_size]` for `i in range(0, len(value_sets), batch_size)`:
contiguous chunks.  Fuel is initialized with the list length; the Python
`range` raises for a zero step, so a positive `bs` is a hypothesis of every
theorem about this function. -/
def chunksGo : Nat → Nat → List (List Char) → List (List (List Char))
  | 0, _, _ => []
  | _ + 1, _, [] => []
  | f + 1, bs, a :: rest =>
    (a :: rest).take bs :: chunksGo f bs ((a :: rest).drop bs)

/-- The chunking of the recovered value-tuple list. -/
def chunks (bs : Nat) (l : List (List Char)) : List (List (List Char)) :=
  chunksGo l.length bs l

/-- `split_into_batches(sql_content, batch_size)`. -/
def splitIntoBatches (sql : List Char) (bs : Nat) : List (List Char) :=
  (findInserts sql).flatMap fun ins =>
    match matchHeader ins with
    | some (header, values) =>
      (chunks bs (findTuples values)).map fun batch =>
        header ++ '\n' :: List.intercalate (",\n".toList) batch ++ [';']
    | none => [ins ++ [';']]

/-! ## Record generator: `generate_member_seed_data.MemberGenerator`

Randomness is modelled by an oracle (`Draw`) supplying, per record, the
values the script draws with `random.*`.  `datetime` values are integers
counting days, so `timedelta(days=365)` is `365`.  Python's `str(counter)`
is decimal rendering, embedded below as `natToChars`.  Record fields with
no bearing on any claim (id, phone, address, zip, chapter, company, job
title, bio, specialties, engagement score) are omitted from the `Member`
projection.
-/

def FIRST_NAMES : List String := [
  "James", "Mary", "John", "Patricia", "Robert", "Jennifer", "Michael", "Linda",
  "William", "Elizabeth", "David", "Barbara", "Richard", "Susan", "Joseph", "Jessica",
  "Thomas", "Sarah", "Christopher", "Karen", "Charles", "Nancy", "Daniel", "Lisa",
  "Matthew", "Betty", "Anthony", "Margaret", "Mark", "Sandra", "Donald", "Ashley",
  "Steven", "Kimberly", "Paul", "Emily", "Andrew", "Donna", "Joshua", "Michelle",
  "Kenneth", "Carol", "Kevin", "Amanda", "Brian", "Dorothy", "George", "Melissa",
  "Timothy", "Deborah", "Ronald", "Stephanie", "Edward", "Rebecca", "Jason", "Sharon",
  "Jeffrey", "Laura", "Ryan", "Cynthia", "Jacob", "Kathleen", "Gary", "Amy",
  "Nicholas", "Angela", "Eric", "Shirley", "Jonathan", "Anna", "Stephen", "Brenda",
  "Larry", "Pamela", "Justin", "Emma", "Scott", "Nicole", "Brandon", "Helen",
  "Benjamin", "Samantha", "Samuel", "Katherine", "Raymond", "Christine", "Gregory", "Debra",
  "Alexander", "Rachel", "Patrick", "Carolyn", "Frank", "Janet", "Jack", "Catherine",
  "Dennis", "Maria", "Jerry", "Heather", "Tyler", "Diane", "Aaron", "Ruth",
  "Jose", "Julie", "Adam", "Olivia", "Nathan", "Joyce", "Henry", "Virginia",
  "Douglas", "Victoria", "Zachary", "Kelly", "Peter", "Lauren", "Kyle", "Christina",
  "Noah", "Joan", "Ethan", "Evelyn", "Jeremy", "Judith", "Walter", "Megan",
  "Christian", "Andrea", "Keith", "Cheryl", "Roger", "Hannah", "Terry", "Jacqueline",
  "Austin", "Martha", "Sean", "Gloria", "Gerald", "Teresa", "Carl", "Ann",
  "Harold", "Sara", "Dylan", "Madison", "Arthur", "Frances", "Lawrence", "Kathryn",
  "Jordan", "Janice", "Jesse", "Jean", "Bryan", "Abigail", "Billy", "Alice"
]

def LAST_NAMES : List String := [
  "Smith", "Johnson", "Williams", "Brown", "Jones", "Garcia", "Miller", "Davis",
  "Rodriguez", "Martinez", "Hernandez", "Lopez", "Gonzalez", "Wilson", "Anderson", "Thomas",
  "Taylor", "Moore", "Jackson", "Martin", "Lee", "Perez", "Thompson", "White",
  "Harris", "Sanchez", "Clark", "Ramirez", "Lewis", "Robinson", "Walker", "Young",
  "Allen", "King", "Wright", "Scott", "Torres", "Nguyen", "Hill", "Flores",
  "Green", "Adams", "Nelson", "Baker", "Hall", "Rivera", "Campbell", "Mitchell",
  "Carter", "Roberts", "Gomez", "Phillips", "Evans", "Turner", "Diaz", "Parker",
  "Cruz", "Edwards", "Collins", "Reyes", "Stewart", "Morris", "Morales", "Murphy",
  "Cook", "Rogers", "Gutierrez", "Ortiz", "Morgan", "Cooper", "Peterson", "Bailey",
  "Reed", "Kelly", "Howard", "Ramos", "Kim", "Cox", "Ward", "Richardson",
  "Watson", "Brooks", "Chavez", "Wood", "James", "Bennett", "Gray", "Mendoza",
  "Ruiz", "Hughes", "Price", "Alvarez", "Castillo", "Sanders", "Patel", "Myers",
  "Long", "Ross", "Foster", "Jimenez", "Powell", "Jenkins", "Perry", "Russell",
  "Sullivan", "Bell", "Coleman", "Butler", "Henderson", "Barnes", "Gonzales", "Fisher",
  "Vasquez", "Simmons", "Romero", "Jordan", "Patterson", "Alexander", "Hamilton", "Graham",
  "Reynolds", "Griffin", "Wallace", "Moreno", "West", "Cole", "Hayes", "Bryant",
  "Herrera", "Gibson", "Ellis", "Tran", "Medina", "Aguilar", "Stevens", "Murray",
  "Ford", "Castro", "Marshall", "Owens", "Harrison", "Fernandez", "McDonald", "Woods",
  "Washington", "Kennedy", "Wells", "Vargas", "Henry", "Chen", "Freeman", "Webb",
  "Tucker", "Guzman", "Burns", "Crawford", "Olson", "Simpson", "Porter", "Hunter"
]

/-- The six email domains of `generate_email`. -/
def DOMAINS : List String :=
  ["gmail.com", "yahoo.com", "outlook.com", "insurance.com", "benefits.com", "broker.com"]

/-- Decimal rendering loop (`str` of a nonzero natural): emit the digits of
`n` in front of `acc`, least significant digit innermost.  The fuel
argument is initialized with `n`, which bounds the number of digits. -/
def toDecGo : Nat → Nat → List Char → List Char
  | 0, _, acc => acc
  | f + 1, n, acc =>
    if n = 0 then acc else toDecGo f (n / 10) (Nat.digitChar (n % 10) :: acc)

/-- Python's `str(n)` for a natural number: decimal digit characters. -/
def natToChars (n : Nat) : List Char :=
  if n = 0 then ['0'] else toDecGo n n []

/-- `f"{first_name.lower()}.{last_name.lower()}"`. -/
def emailBase (first last : List Char) : List Char :=
  first.map Char.toLower ++ '.' :: last.map Char.toLower

/-- The candidate sequence of `generate_email`: first `base@domain`, then
`base{counter}@domain` for `counter = 1, 2, ...`. -/
def emailCandidate (base dom : List Char) (k : Nat) : List Char :=
  base ++ (if k = 0 then [] else natToChars k) ++ '@' :: dom

/-- `Nat.digitChar` is injective below `10`. -/
theorem digitChar_inj_lt {a b : Nat} (ha : a < 10) (hb : b < 10)
    (h : Nat.digitChar a = Nat.digitChar b) : a = b := by
  interval_cases a <;> interval_cases b <;> first
    | rfl
    | exact absurd h (by decide)

/-- The accumulator of `toDecGo` is a suffix. -/
theorem toDecGo_append (f : Nat) :
    ∀ (n : Nat) (acc : List Char), toDecGo f n acc = toDecGo f n [] ++ acc := by
  induction f with
  | zero => intro n acc; rfl
  | succ f ih =>
    intro n acc
    by_cases h : n = 0
    · simp [toDecGo, h]
    · simp only [toDecGo, h, if_false]
      rw [ih (n / 10) (Nat.digitChar (n % 10) :: acc), ih (n / 10) [Nat.digitChar (n % 10)]]
      simp

/-- `toDecGo` at `n = 0` returns the accumulator whatever the fuel. -/
theorem toDecGo_zero (f : Nat) (acc : List Char) : toDecGo f 0 acc = acc := by
  cases f <;> simp [toDecGo]

/-- Any fuel at least `n` computes the same digits. -/
theorem toDecGo_fuel :
    ∀ (n f g : Nat) (acc : List Char), n ≤ f → n ≤ g →
      toDecGo f n acc = toDecGo g n acc := by
  intro n
  induction n using Nat.strong_induction_on with
  | _ n ih =>
    intro f g acc hf hg
    by_cases h : n = 0
    · subst h; rw [toDecGo_zero, toDecGo_zero]
    · obtain ⟨f, rfl⟩ : ∃ k, f = k + 1 := ⟨f - 1, by omega⟩
      obtain ⟨g, rfl⟩ : ∃ k, g = k + 1 := ⟨g - 1, by omega⟩
      simp only [toDecGo, h, if_false]
      have hdiv : n / 10 < n := Nat.div_lt_self (Nat.pos_of_ne_zero h) (by norm_num)
      exact ih (n / 10) hdiv f g _ (by omega) (by omega)

/-- Peeling the last decimal digit. -/
theorem natToChars_step {n : Nat} (h : 0 < n) :
    natToChars n =
      (if n / 10 = 0 then [] else natToChars (n / 10)) ++ [Nat.digitChar (n % 10)] := by
  obtain ⟨g, rfl⟩ : ∃ g, n = g + 1 := ⟨n - 1, by omega⟩
  have h1 : natToChars (g + 1) = toDecGo g ((g + 1) / 10) [Nat.digitChar ((g + 1) % 10)] := by
    simp [natToChars, toDecGo]
  rw [h1, toDecGo_append]
  by_cases h10 : (g + 1) / 10 = 0
  · simp [h10, toDecGo_zero]
  · have hdiv : (g + 1) / 10 < g + 1 := Nat.div_lt_self (by omega) (by norm_num)
    rw [toDecGo_fuel ((g + 1) / 10) g ((g + 1) / 10) [] (by omega) le_rfl]
    simp [h10, natToChars]

/-- Decimal renderings are nonempty. -/
theorem natToChars_ne_nil (n : Nat) : natToChars n ≠ [] := by
  by_cases h : n = 0
  · simp [natToChars, h]
  · rw [natToChars_step (Nat.pos_of_ne_zero h)]
    simp

/-- Only `0` renders as the single digit `0`. -/
theorem natToChars_eq_singleton_zero {m : Nat} (h : natToChars m = ['0']) : m = 0 := by
  by_contra hm
  rw [natToChars_step (Nat.pos_of_ne_zero hm)] at h
  have hlen := congrArg List.length h
  rw [List.length_append] at hlen
  have hpre : (if m / 10 = 0 then ([] : List Char) else natToChars (m / 10)) = [] := by
    have : (if m / 10 = 0 then ([] : List Char) else natToChars (m / 10)).length = 0 := by
      simpa using hlen
    exact List.eq_nil_of_length_eq_zero this
  have hm10 : m / 10 = 0 := by
    by_contra hx
    exact natToChars_ne_nil (m / 10) (by simpa [hx] using hpre)
  rw [hpre, List.nil_append] at h
  have hdig : Nat.digitChar (m % 10) = Nat.digitChar 0 := by
    have := List.head_eq_of_cons_eq h
    simpa using this
  have hmod : m % 10 = 0 :=
    digitChar_inj_lt (Nat.mod_lt _ (by norm_num)) (by norm_num) hdig
  have := Nat.div_add_mod m 10
  omega

/-- `str` is injective on naturals: distinct counters render distinctly. -/
theorem natToChars_injective : Function.Injective natToChars := by
  intro n m
  induction n using Nat.strong_induction_on generalizing m with
  | _ n ih =>
    intro h
    by_cases hn : n = 0 <;> by_cases hm : m = 0
    · omega
    · subst hn
      have h0 : natToChars m = ['0'] := by
        rw [← h]; rfl
      exact absurd (natToChars_eq_singleton_zero h0) hm
    · subst hm
      have h0 : natToChars n = ['0'] := by
        rw [h]; rfl
      exact (natToChars_eq_singleton_zero h0).symm ▸ rfl
    · rw [natToChars_step (Nat.pos_of_ne_zero hn), natToChars_step (Nat.pos_of_ne_zero hm)] at h
      obtain ⟨hpre, hdig⟩ := List.append_inj' h (by simp)
      have hmod : n % 10 = m % 10 :=
        digitChar_inj_lt (Nat.mod_lt _ (by norm_num)) (Nat.mod_lt _ (by norm_num))
          (by simpa using hdig)
      have hdm := Nat.div_add_mod n 10
      have hdm2 := Nat.div_add_mod m 10
      by_cases h1 : n / 10 = 0 <;> by_cases h2 : m / 10 = 0
      · omega
      · exact absurd (by simpa [h1, h2] using hpre.symm) (natToChars_ne_nil (m / 10))
      · exact absurd (by simpa [h1, h2] using hpre) (natToChars_ne_nil (n / 10))
      · have hdiv : n / 10 < n := Nat.div_lt_self (Nat.pos_of_ne_zero hn) (by norm_num)
        have : n / 10 = m / 10 := ih (n / 10) hdiv (by simpa [h1, h2] using hpre)
        omega

/-- For a fixed base and domain the candidate emails are pairwise distinct:
the suffix counter never repeats a candidate. -/
theorem emailCandidate_injective (base dom : List Char) :
    Function.Injective (emailCandidate base dom) := by
  intro k l h
  unfold emailCandidate at h
  have h2 := List.append_cancel_right h
  have h4 := List.append_cancel_left h2
  by_cases hk : k = 0 <;> by_cases hl : l = 0
  · omega
  · exact absurd (by simpa [hk, hl] using h4.symm) (natToChars_ne_nil l)
  · exact absurd (by simpa [hk, hl] using h4) (natToChars_ne_nil k)
  · exact natToChars_injective (by simpa [hk, hl] using h4)

/-- A fresh candidate always exists: the candidates are an injective
sequence and the issued set is finite. -/
theorem exists_fresh_candidate (issued : Finset (List Char)) (base dom : List Char) :
    ∃ k, emailCandidate base dom k ∉ issued := by
  by_contra hc
  push_neg at hc
  have hsub : (Finset.range (issued.card + 1)).image (emailCandidate base dom) ⊆ issued := by
    intro x hx
    rcases Finset.mem_image.mp hx with ⟨k, _, rfl⟩
    exact hc k
  have hcard : ((Finset.range (issued.card + 1)).image (emailCandidate base dom)).card
      = issued.card + 1 := by
    rw [Finset.card_image_of_injective _ (emailCandidate_injective base dom), Finset.card_range]
  have := Finset.card_le_card hsub
  omega

/-- The value of the suffix counter at which the `while email in
self.generated_emails` loop of `generate_email` exits: the least index
whose candidate is not already issued. -/
def emailIndex (issued : Finset (List Char)) (base dom : List Char) : Nat :=
  Nat.find (exists_fresh_candidate issued base dom)

/-- `MemberGenerator.generate_email`: returns the first fresh candidate and
the updated issued set (`self.generated_emails.add(email)`). -/
def generateEmail (issued : Finset (List Char)) (base dom : List Char) :
    List Char × Finset (List Char) :=
  let e := emailCandidate base dom (emailIndex issued base dom)
  (e, insert e issued)

/-- The inline status draw of `generate_members`:
`if status_rand < 0.90: "active" elif < 0.95: "lapsed" elif < 0.98:
"inactive" else: "pending"`. -/
def statusOfU (u : ℚ) : String :=
  if u < 0.90 then "active"
  else if u < 0.95 then "lapsed"
  else if u < 0.98 then "inactive"
  else "pending"

/-- The status mix declared by the script
(`# Generate status (90% active, 5% lapsed, 3% inactive, 2% pending)`). -/
def statusDistribution : List (String × ℚ) :=
  [("active", 0.90), ("lapsed", 0.05), ("inactive", 0.03), ("pending", 0.02)]

/-- The advancing loop of `generate_renewal_date`:
`while renewal < datetime.now(): renewal += timedelta(days=365)`.
Times are integers counting days. -/
def renewalFrom (now renewal : ℤ) : ℤ :=
  if h : renewal < now then renewalFrom now (renewal + 365) else renewal
termination_by (now - renewal).toNat
decreasing_by simp_wf; omega

/-- `MemberGenerator.generate_renewal_date`: start one period after
`member_since` and advance until not in the past. -/
def generateRenewalDate (since now : ℤ) : ℤ :=
  renewalFrom now (since + 365)

/-- `MemberGenerator.generate_member_since_date`:
`datetime.now() - timedelta(days=years_ago*365 + months_ago*30)`. -/
def generateMemberSince (now : ℤ) (yearsAgo monthsAgo : ℕ) : ℤ :=
  now - (yearsAgo * 365 + monthsAgo * 30)

/-- Round-half-to-even to an integer: the rounding used by Python's
`round`. -/
def roundHalfEven (x : ℚ) : ℤ :=
  if x - ⌊x⌋ < 1 / 2 then ⌊x⌋
  else if 1 / 2 < x - ⌊x⌋ then ⌊x⌋ + 1
  else if ⌊x⌋ % 2 = 0 then ⌊x⌋ else ⌊x⌋ + 1

/-- Python's `round(x, 2)`. -/
def round2 (x : ℚ) : ℚ :=
  (roundHalfEven (x * 100) : ℚ) / 100

/-- `MemberGenerator.calculate_ce_credits`: elapsed years (exact division
by 365) times the drawn per-year rate, rounded to two decimals and capped
at `150.0`. -/
def calculateCeCredits (elapsedDays : ℤ) (ratePerYear : ℚ) : ℚ :=
  min (round2 ((elapsedDays : ℚ) / 365 * ratePerYear)) 150

/-- The random values `generate_members` draws for one record, supplied by
an oracle.  Indices select pool elements (`random.choice`); rationals model
`random.random()` and `random.uniform(8, 18)`; the two `randint` draws of
`generate_member_since_date` are the year and month offsets. -/
structure Draw where
  firstIdx : Nat
  lastIdx : Nat
  statusU : ℚ
  yearsAgo : Nat
  monthsAgo : Nat
  ratePerYear : ℚ

/-- The claim-relevant projection of one generated member record. -/
structure Member where
  firstName : List Char
  lastName : List Char
  email : List Char
  status : String
  memberSince : ℤ
  renewalDate : ℤ
  totalCeCredits : ℚ

/-- `random.choice(pool)` with the oracle-supplied index. -/
def poolChoice (pool : List String) (idx : Nat) : List Char :=
  (pool.getD (idx % pool.length) "").toList

/-- Build the record fields of one member from its draw, its email, and the
generation-time clock. -/
def mkMember (d : Draw) (email : List Char) (now : ℤ) : Member :=
  let since := generateMemberSince now d.yearsAgo d.monthsAgo
  { firstName := poolChoice FIRST_NAMES d.firstIdx
    lastName := poolChoice LAST_NAMES d.lastIdx
    email := email
    status := statusOfU d.statusU
    memberSince := since
    renewalDate := generateRenewalDate since now
    totalCeCredits := calculateCeCredits (now - since) d.ratePerYear }

/-- The loop of `generate_members`: record index `i`, remaining count, and
the issued-email set threaded through `generate_email` (whose
`domain_num` argument is the record index `i`). -/
def genRun (draws : Nat → Draw) (now : ℤ) : Nat → Nat → Finset (List Char) →
    List Member × Finset (List Char)
  | _, 0, issued => ([], issued)
  | i, n + 1, issued =>
    let d := draws i
    let base := emailBase (poolChoice FIRST_NAMES d.firstIdx) (poolChoice LAST_NAMES d.lastIdx)
    let dom := (DOMAINS.getD (i % DOMAINS.length) "").toList
    let step := generateEmail issued base dom
    let rest := genRun draws now (i + 1) n step.2
    (mkMember d step.1 now :: rest.1, rest.2)

/-- `MemberGenerator.generate_members(total_count)`: the full record list
of one run. -/
def generateMembers (draws : Nat → Draw) (now : ℤ) (total : Nat) : List Member :=
  (genRun draws now 0 total ∅).1

/-! ## Theorems -/

/-- The email returned by `generate_email` is fresh. -/
theorem generateEmail_fst_not_mem (issued : Finset (List Char)) (base dom : List Char) :
    (generateEmail issued base dom).1 ∉ issued :=
  Nat.find_spec (exists_fresh_candidate issued base dom)

/-- `generate_email` adds exactly the returned email to the issued set. -/
theorem generateEmail_snd (issued : Finset (List Char)) (base dom : List Char) :
    (generateEmail issued base dom).2 = insert (generateEmail issued base dom).1 issued :=
  rfl

/-- Every candidate strictly before the returned one was already issued:
the loop exits at the least fresh counter value. -/
theorem emailIndex_min (issued : Finset (List Char)) (base dom : List Char) :
    ∀ j < emailIndex issued base dom, emailCandidate base dom j ∈ issued :=
  fun _ hj => not_not.mp (Nat.find_min (exists_fresh_candidate issued base dom) hj)

/-- C10: for every prior issued set and sampled name components, the email
loop terminates at the strictly increasing disambiguator's first fresh
candidate (the candidates are pairwise distinct, so one outside the finite
issued set is always reached); the returned email is not in the prior set
and the issued set afterwards is the prior set plus exactly that email;
no error path exists. -/
theorem generate_email_loop_terminates (issued : Finset (List Char)) (base dom : List Char) :
    (generateEmail issued base dom).1 ∉ issued ∧
    (generateEmail issued base dom).2 = insert (generateEmail issued base dom).1 issued ∧
    Function.Injective (emailCandidate base dom) ∧
    ∃ k, (generateEmail issued base dom).1 = emailCandidate base dom k ∧
      ∀ j < k, emailCandidate base dom j ∈ issued :=
  ⟨generateEmail_fst_not_mem issued base dom, rfl, emailCandidate_injective base dom,
    emailIndex issued base dom, rfl, emailIndex_min issued base dom⟩

/-- C6 (amended): the number of failed disambiguation attempts is bounded
by the size of the issued set — a fresh key is always found within
`issued.card + 1` candidates, so the generator neither loops forever nor
needs a capacity error. -/
theorem emailIndex_le_card (issued : Finset (List Char)) (base dom : List Char) :
    emailIndex issued base dom ≤ issued.card := by
  by_contra hgt
  push_neg at hgt
  have hsub : (Finset.range (issued.card + 1)).image (emailCandidate base dom) ⊆ issued := by
    intro x hx
    rcases Finset.mem_image.mp hx with ⟨k, hk, rfl⟩
    exact emailIndex_min issued base dom k (by
      have := Finset.mem_range.mp hk; omega)
  have hcard : ((Finset.range (issued.card + 1)).image (emailCandidate base dom)).card
      = issued.card + 1 := by
    rw [Finset.card_image_of_injective _ (emailCandidate_injective base dom), Finset.card_range]
  have := Finset.card_le_card hsub
  omega

/-- C6 counterexample: there is no uniform bound on the number of
disambiguation attempts after which the generator could fail — for every
proposed bound `B` an issued set of `B + 1` candidates forces the loop past
`B` attempts, and the code still succeeds (it has no capacity-error path at
all, so no bounded-fail behaviour exists). -/
theorem no_uniform_attempt_bound :
    ¬ ∃ B : Nat, ∀ (issued : Finset (List Char)) (base dom : List Char),
        emailIndex issued base dom ≤ B := by
  rintro ⟨B, hB⟩
  have hmem : ∀ k ≤ B, emailCandidate [] [] k ∈
      (Finset.range (B + 1)).image (emailCandidate [] []) := fun k hk =>
    Finset.mem_image.mpr ⟨k, Finset.mem_range.mpr (by omega), rfl⟩
  have hlt : B < emailIndex ((Finset.range (B + 1)).image (emailCandidate [] [])) [] [] := by
    rw [emailIndex, Nat.lt_find_iff]
    intro m hm
    exact not_not.mpr (hmem m hm)
  have := hB ((Finset.range (B + 1)).image (emailCandidate [] [])) [] []
  omega

/-- Invariant of the `generate_members` loop: it emits exactly `n` records,
none of whose emails collides with the incoming issued set, the emitted
emails are pairwise distinct, and each email is a suffix-disambiguated
candidate built from the record's own sampled name components. -/
theorem genRun_spec (draws : Nat → Draw) (now : ℤ) :
    ∀ (n i : Nat) (issued : Finset (List Char)),
      (genRun draws now i n issued).1.length = n ∧
      (∀ m ∈ (genRun draws now i n issued).1, m.email ∉ issued) ∧
      ((genRun draws now i n issued).1.map Member.email).Nodup ∧
      (∀ m ∈ (genRun draws now i n issued).1,
        ∃ k dom, dom ∈ DOMAINS ∧
          m.email = emailCandidate (emailBase m.firstName m.lastName) dom.toList k) := by
  intro n
  induction n with
  | zero =>
    intro i issued
    refine ⟨rfl, ?_, ?_, ?_⟩ <;> simp [genRun]
  | succ n ih =>
    intro i issued
    have hun : genRun draws now i (n + 1) issued =
        (mkMember (draws i)
            (generateEmail issued
              (emailBase (poolChoice FIRST_NAMES (draws i).firstIdx)
                (poolChoice LAST_NAMES (draws i).lastIdx))
              ((DOMAINS.getD (i % DOMAINS.length) "").toList)).1 now ::
          (genRun draws now (i + 1) n
            (generateEmail issued
              (emailBase (poolChoice FIRST_NAMES (draws i).firstIdx)
                (poolChoice LAST_NAMES (draws i).lastIdx))
              ((DOMAINS.getD (i % DOMAINS.length) "").toList)).2).1,
         (genRun draws now (i + 1) n
            (generateEmail issued
              (emailBase (poolChoice FIRST_NAMES (draws i).firstIdx)
                (poolChoice LAST_NAMES (draws i).lastIdx))
              ((DOMAINS.getD (i % DOMAINS.length) "").toList)).2).2) := rfl
    set base := emailBase (poolChoice FIRST_NAMES (draws i).firstIdx)
      (poolChoice LAST_NAMES (draws i).lastIdx) with hbase
    set dom := (DOMAINS.getD (i % DOMAINS.length) "").toList with hdom
    set e := (generateEmail issued base dom).1 with he
    set issued' := (generateEmail issued base dom).2 with hiss
    obtain ⟨ihlen, ihfresh, ihnodup, ihform⟩ := ih (i + 1) issued'
    have hefresh : e ∉ issued := generateEmail_fst_not_mem issued base dom
    have hins : issued' = insert e issued := rfl
    have htail_ne : ∀ m ∈ (genRun draws now (i + 1) n issued').1, m.email ≠ e := by
      intro m hm
      have := ihfresh m hm
      rw [hins] at this
      exact fun hc => this (hc ▸ Finset.mem_insert_self e issued)
    refine ⟨?_, ?_, ?_, ?_⟩
    · rw [hun]; simpa using ihlen
    · rw [hun]
      intro m hm
      rcases List.mem_cons.mp hm with rfl | hm
      · exact hefresh
      · have := ihfresh m hm
        rw [hins] at this
        exact fun hc => this (Finset.mem_insert_of_mem hc)
    · rw [hun]
      simp only [List.map_cons, List.nodup_cons]
      constructor
      · intro hc
        rcases List.mem_map.mp hc with ⟨m, hm, hme⟩
        exact htail_ne m hm hme
      · exact ihnodup
    · rw [hun]
      intro m hm
      rcases List.mem_cons.mp hm with rfl | hm
      · refine ⟨emailIndex issued base dom, DOMAINS.getD (i % DOMAINS.length) "", ?_, rfl⟩
        have hlt : i % DOMAINS.length < DOMAINS.length := Nat.mod_lt _ (by decide)
        rw [List.getD_eq_getElem DOMAINS "" hlt]
        exact List.getElem_mem hlt
      · exact ihform m hm

/-- C1: a run with target count `N` yields exactly `N` records, their
emails (natural keys) are pairwise distinct, and every email is a
deterministically suffixed candidate built from that record's own sampled
name components and an email domain from the fixed pool — a collision is
resolved by the numeric suffix, never by re-sampling the record. -/
theorem generate_members_count_and_unique_keys (draws : Nat → Draw) (now : ℤ) (N : Nat) :
    (generateMembers draws now N).length = N ∧
    ((generateMembers draws now N).map Member.email).Nodup ∧
    (∀ m ∈ generateMembers draws now N,
      ∃ k dom, dom ∈ DOMAINS ∧
        m.email = emailCandidate (emailBase m.firstName m.lastName) dom.toList k) := by
  obtain ⟨h1, _, h3, h4⟩ := genRun_spec draws now N 0 ∅
  exact ⟨h1, h3, h4⟩

/-- The advancing loop exits at or after `now`. -/
theorem renewalFrom_ge (now : ℤ) : ∀ r : ℤ, now ≤ renewalFrom now r := by
  intro r
  induction r using renewalFrom.induct now with
  | case1 x hx ih => rw [renewalFrom, dif_pos hx]; exact ih
  | case2 x hx => rw [renewalFrom, dif_neg hx]; omega

/-- The loop only adds whole periods to its start value. -/
theorem renewalFrom_exists_period (now : ℤ) :
    ∀ r : ℤ, ∃ k : ℕ, renewalFrom now r = r + 365 * k := by
  intro r
  induction r using renewalFrom.induct now with
  | case1 x hx ih =>
    obtain ⟨k, hk⟩ := ih
    refine ⟨k + 1, ?_⟩
    rw [renewalFrom, dif_pos hx, hk]
    push_cast
    ring
  | case2 x hx => exact ⟨0, by rw [renewalFrom, dif_neg hx]; simp⟩

/-- The loop stops at the first progression value at or after `now`. -/
theorem renewalFrom_min (now : ℤ) :
    ∀ r : ℤ, ∀ j : ℕ, now ≤ r + 365 * j → renewalFrom now r ≤ r + 365 * j := by
  intro r
  induction r using renewalFrom.induct now with
  | case1 x hx ih =>
    intro j hj
    have hj0 : j ≠ 0 := by
      rintro rfl
      simp at hj
      omega
    obtain ⟨j', rfl⟩ : ∃ j', j = j' + 1 := ⟨j - 1, by omega⟩
    rw [renewalFrom, dif_pos hx]
    have := ih j' (by push_cast at hj ⊢; omega)
    push_cast at this ⊢
    omega
  | case2 x hx =>
    intro j hj
    rw [renewalFrom, dif_neg hx]
    have : (0 : ℤ) ≤ 365 * (j : ℤ) := by positivity
    omega

/-- If the loop starts below `now + 365` it also ends below it. -/
theorem renewalFrom_lt (now : ℤ) :
    ∀ r : ℤ, r < now + 365 → renewalFrom now r < now + 365 := by
  intro r
  induction r using renewalFrom.induct now with
  | case1 x hx ih =>
    intro _
    rw [renewalFrom, dif_pos hx]
    exact ih (by omega)
  | case2 x hx =>
    intro h
    rw [renewalFrom, dif_neg hx]
    exact h

/-- C3: for every record, `since` is strictly before the renewal date, the
renewal date is `since` plus a positive whole number of 365-day periods,
and it is the smallest such progression value not earlier than the
generation-time `now`; whenever `since` is strictly in the past (every run
not started exactly at midnight), the renewal date is also less than one
full period past `now`. -/
theorem renewal_date_progression (since now : ℤ) :
    since < generateRenewalDate since now ∧
    (∃ k : ℕ, 1 ≤ k ∧ generateRenewalDate since now = since + 365 * k) ∧
    now ≤ generateRenewalDate since now ∧
    (∀ j : ℕ, 1 ≤ j → now ≤ since + 365 * j →
      generateRenewalDate since now ≤ since + 365 * j) ∧
    (since < now → generateRenewalDate since now < now + 365) := by
  obtain ⟨k, hk⟩ := renewalFrom_exists_period now (since + 365)
  have hge := renewalFrom_ge now (since + 365)
  refine ⟨?_, ⟨k + 1, by omega, ?_⟩, ?_, ?_, ?_⟩
  · unfold generateRenewalDate
    rw [hk]
    have : (0 : ℤ) ≤ 365 * (k : ℤ) := by positivity
    omega
  · unfold generateRenewalDate
    rw [hk]
    push_cast
    ring
  · exact hge
  · intro j hj1 hj2
    unfold generateRenewalDate
    obtain ⟨j', rfl⟩ : ∃ j', j = j' + 1 := ⟨j - 1, by omega⟩
    have := renewalFrom_min now (since + 365) j' (by push_cast at hj2 ⊢; omega)
    push_cast at this ⊢
    omega
  · intro h
    exact renewalFrom_lt now (since + 365) (by omega)

/-- C8: the status draw maps a uniform `[0,1)` value through the fixed
cumulative boundaries `0.90 / 0.95 / 0.98`; each status holds exactly on
its interval, the result always lies in the closed four-value set, and the
declared probabilities sum to `1.0`. -/
theorem status_sampling_thresholds (u : ℚ) (_hlow : 0 ≤ u) (hhigh : u < 1) :
    (statusOfU u = "active" ↔ u < 0.90) ∧
    (statusOfU u = "lapsed" ↔ 0.90 ≤ u ∧ u < 0.95) ∧
    (statusOfU u = "inactive" ↔ 0.95 ≤ u ∧ u < 0.98) ∧
    (statusOfU u = "pending" ↔ 0.98 ≤ u) ∧
    statusOfU u ∈ ["active", "lapsed", "inactive", "pending"] ∧
    (statusDistribution.map Prod.snd).sum = 1 := by
  have hsum : (statusDistribution.map Prod.snd).sum = 1 := by
    norm_num [statusDistribution]
  unfold statusOfU
  split_ifs with ha hb hc
  · exact ⟨iff_of_true rfl ha,
      iff_of_false (by decide) (fun h => by linarith [h.1]),
      iff_of_false (by decide) (fun h => by linarith [h.1]),
      iff_of_false (by decide) (fun h => by linarith),
      by decide, hsum⟩
  · exact ⟨iff_of_false (by decide) ha,
      iff_of_true rfl ⟨by linarith, hb⟩,
      iff_of_false (by decide) (fun h => by linarith [h.1]),
      iff_of_false (by decide) (fun h => by linarith),
      by decide, hsum⟩
  · exact ⟨iff_of_false (by decide) ha,
      iff_of_false (by decide) (fun h => by linarith [h.2]),
      iff_of_true rfl ⟨by linarith, hc⟩,
      iff_of_false (by decide) (fun h => by linarith),
      by decide, hsum⟩
  · exact ⟨iff_of_false (by decide) ha,
      iff_of_false (by decide) (fun h => by linarith [h.2]),
      iff_of_false (by decide) (fun h => by linarith [h.2]),
      iff_of_true rfl (by linarith),
      by decide, hsum⟩

/-- Witness for C8 at the concrete draw `u = 1/2`. -/
theorem status_sampling_thresholds_witness : statusOfU (1 / 2) = "active" :=
  ((status_sampling_thresholds (1 / 2) (by norm_num) (by norm_num)).1).mpr (by norm_num)

/-- Round-half-even never rounds below the floor. -/
theorem roundHalfEven_ge_floor (x : ℚ) : ⌊x⌋ ≤ roundHalfEven x := by
  unfold roundHalfEven
  split_ifs <;> omega

/-- Round-half-even never rounds above the floor plus one. -/
theorem roundHalfEven_le_floor_add_one (x : ℚ) : roundHalfEven x ≤ ⌊x⌋ + 1 := by
  unfold roundHalfEven
  split_ifs <;> omega

/-- Below the midpoint the value rounds down. -/
theorem roundHalfEven_eq_floor {x : ℚ} (h : x - ⌊x⌋ < 1 / 2) :
    roundHalfEven x = ⌊x⌋ := by
  unfold roundHalfEven
  rw [if_pos h]

/-- Above the midpoint the value rounds up. -/
theorem roundHalfEven_eq_floor_add_one {x : ℚ} (h : 1 / 2 < x - ⌊x⌋) :
    roundHalfEven x = ⌊x⌋ + 1 := by
  unfold roundHalfEven
  rw [if_neg (by linarith), if_pos h]

/-- Round-half-even is monotone. -/
theorem roundHalfEven_mono {x y : ℚ} (h : x ≤ y) :
    roundHalfEven x ≤ roundHalfEven y := by
  have hf : ⌊x⌋ ≤ ⌊y⌋ := Int.floor_le_floor h
  rcases eq_or_lt_of_le hf with heq | hlt
  · by_cases hy : y - ⌊y⌋ < 1 / 2
    · have hx : x - ⌊x⌋ < 1 / 2 := by
        have : x - (⌊x⌋ : ℚ) ≤ y - ⌊y⌋ := by
          rw [← heq]
          linarith
        linarith
      rw [roundHalfEven_eq_floor hx]
      have := roundHalfEven_ge_floor y
      omega
    · by_cases hy2 : 1 / 2 < y - ⌊y⌋
      · rw [roundHalfEven_eq_floor_add_one hy2]
        have := roundHalfEven_le_floor_add_one x
        omega
      · have hyeq : y - (⌊y⌋ : ℚ) = 1 / 2 := le_antisymm (not_lt.mp hy2) (not_lt.mp hy)
        by_cases hx2 : x - ⌊x⌋ < 1 / 2
        · rw [roundHalfEven_eq_floor hx2]
          have := roundHalfEven_ge_floor y
          omega
        · have hxy : x = y := by
            have h1 : x - (⌊x⌋ : ℚ) = 1 / 2 := by
              have hle : x - (⌊x⌋ : ℚ) ≤ 1 / 2 := by
                have hc : ((⌊x⌋ : ℚ)) = ((⌊y⌋ : ℚ)) := by exact_mod_cast heq
                linarith
              exact le_antisymm hle (not_lt.mp hx2)
            have hc : ((⌊x⌋ : ℚ)) = ((⌊y⌋ : ℚ)) := by exact_mod_cast heq
            linarith
          rw [hxy]
  · have h1 := roundHalfEven_le_floor_add_one x
    have h2 := roundHalfEven_ge_floor y
    omega

/-- C9: for a nonnegative tenure and a per-year rate in `[8, 18]`, the
total CE credits lie in `[0, 150]` (the declared ceiling), and for a fixed
rate they are monotonically non-decreasing in elapsed tenure. -/
theorem ce_credits_bounds_and_mono (days days2 : ℤ) (rate : ℚ)
    (hd : 0 ≤ days) (hr1 : 8 ≤ rate) (_hr2 : rate ≤ 18) :
    0 ≤ calculateCeCredits days rate ∧
    calculateCeCredits days rate ≤ 150 ∧
    (days ≤ days2 → calculateCeCredits days rate ≤ calculateCeCredits days2 rate) := by
  have hval : ∀ d : ℤ, 0 ≤ d → 0 ≤ (d : ℚ) / 365 * rate := by
    intro d hd0
    apply mul_nonneg
    · apply div_nonneg
      · exact_mod_cast hd0
      · norm_num
    · linarith
  refine ⟨?_, min_le_right _ _, ?_⟩
  · apply le_min
    · unfold round2
      have h0 : (0 : ℤ) ≤ ⌊((days : ℚ) / 365 * rate) * 100⌋ := by
        apply Int.floor_nonneg.mpr
        have := hval days hd
        positivity
      have := roundHalfEven_ge_floor (((days : ℚ) / 365 * rate) * 100)
      have hz : (0 : ℚ) ≤ (roundHalfEven (((days : ℚ) / 365 * rate) * 100) : ℚ) := by
        exact_mod_cast le_trans h0 this
      positivity
    · norm_num
  · intro hdle
    apply min_le_min _ le_rfl
    unfold round2
    apply div_le_div_of_nonneg_right ?_ (by norm_num)
    have hmono : ((days : ℚ) / 365 * rate) * 100 ≤ ((days2 : ℚ) / 365 * rate) * 100 := by
      have hq : (days : ℚ) ≤ (days2 : ℚ) := by exact_mod_cast hdle
      have hrate : (0 : ℚ) ≤ rate := by linarith
      nlinarith
    exact_mod_cast roundHalfEven_mono hmono

/-- Witness for C9 at one year of tenure and the mean rate. -/
theorem ce_credits_bounds_and_mono_witness :
    0 ≤ calculateCeCredits 365 12 ∧
    calculateCeCredits 365 12 ≤ 150 ∧
    ((365 : ℤ) ≤ 730 → calculateCeCredits 365 12 ≤ calculateCeCredits 730 12) :=
  ce_credits_bounds_and_mono 365 730 12 (by norm_num) (by norm_num) (by norm_num)

/-- Chunking the empty list yields no batches, whatever the fuel. -/
theorem chunksGo_nil (f bs : Nat) : chunksGo f bs [] = [] := by
  cases f <;> rfl

/-- Every chunk holds at most `bs` tuples. -/
theorem chunksGo_length_le (f bs : Nat) :
    ∀ l, ∀ b ∈ chunksGo f bs l, b.length ≤ bs := by
  induction f with
  | zero =>
    intro l b hb
    simp [chunksGo] at hb
  | succ f ih =>
    intro l b hb
    match l with
    | [] => simp [chunksGo] at hb
    | a :: rest =>
      simp only [chunksGo] at hb
      rcases List.mem_cons.mp hb with rfl | hb
      · rw [List.length_take]
        exact min_le_left _ _
      · exact ih _ b hb

/-- Every chunk except possibly the last holds exactly `bs` tuples. -/
theorem chunksGo_full (bs : Nat) (hbs : 0 < bs) :
    ∀ (f : Nat) (l : List (List Char)), l.length ≤ f →
      ∀ i, i + 1 < (chunksGo f bs l).length →
        ((chunksGo f bs l).getD i []).length = bs := by
  intro f
  induction f with
  | zero =>
    intro l hl i hi
    simp [chunksGo] at hi
  | succ f ih =>
    intro l hl i hi
    match l with
    | [] => simp [chunksGo] at hi
    | a :: rest =>
      simp only [chunksGo] at hi ⊢
      match i with
      | 0 =>
        have hne : chunksGo f bs ((a :: rest).drop bs) ≠ [] := by
          intro h0
          rw [h0] at hi
          simp at hi
        have hdrop : (a :: rest).drop bs ≠ [] := by
          intro h0
          rw [h0, chunksGo_nil] at hne
          exact hne rfl
        have hlen : bs < (a :: rest).length := by
          by_contra hle
          push_neg at hle
          exact hdrop (List.drop_eq_nil_of_le hle)
        simp only [List.getD_cons_zero, List.length_take]
        omega
      | i + 1 =>
        have hrec := ih ((a :: rest).drop bs)
          (by simp only [List.length_drop]; omega) i (by simpa using hi)
        simpa using hrec

/-- C4: for every recovered value-tuple sequence and positive batch size,
each produced batch holds at most `batch_size` tuples, and every batch
except possibly the last holds exactly `batch_size` tuples. -/
theorem batch_size_bound (tuples : List (List Char)) (bs : Nat) (hbs : 0 < bs) :
    (∀ b ∈ chunks bs tuples, b.length ≤ bs) ∧
    (∀ i, i + 1 < (chunks bs tuples).length →
      ((chunks bs tuples).getD i []).length = bs) :=
  ⟨fun b hb => chunksGo_length_le tuples.length bs tuples b hb,
   fun i hi => chunksGo_full bs hbs tuples.length tuples le_rfl i hi⟩

/-- Witness for C4: three tuples at batch size two; the non-final batch is
full. -/
theorem batch_size_bound_witness :
    ((chunks 2 ["(1)".toList, "(2)".toList, "(3)".toList]).getD 0 []).length = 2 :=
  (batch_size_bound ["(1)".toList, "(2)".toList, "(3)".toList] 2 (by decide)).2 0 (by decide)

/-- The raw input of the round-trip scenario. -/
def rawRoundTrip : List Char :=
  "INSERT INTO t (a,b) VALUES (1,'x'),(2,'y'),(3,'z');".toList

/-- C5 counterexample: on the scenario input with batch size two, the
produced batches are not the two statements the claim writes — the script
joins the header and the tuples with newlines, not with the original
single spaces. -/
theorem round_trip_literal_counterexample :
    splitIntoBatches rawRoundTrip 2 ≠
      ["INSERT INTO t (a,b) VALUES (1,'x'),(2,'y');".toList,
       "INSERT INTO t (a,b) VALUES (3,'z');".toList] := by
  decide

/-- C5 (amended): the scenario yields exactly two batches carrying the
tuple groups `(1,'x'),(2,'y')` and `(3,'z')`, with header and tuples
joined by `\n` and `,\n`. -/
theorem round_trip_batches :
    splitIntoBatches rawRoundTrip 2 =
      ["INSERT INTO t (a,b) VALUES\n(1,'x'),\n(2,'y');".toList,
       "INSERT INTO t (a,b) VALUES\n(3,'z');".toList] := by
  decide

/-- A value-tuple whose quoted string field holds a parenthesis, exactly
as `generate_phone` produces (`f"({area}) {exchange}-{number}"`). -/
def phoneTuple : List Char :=
  "('(202) 555-0100')".toList

/-- A bulk-insert statement whose single value-tuple is `phoneTuple`. -/
def rawPhoneStatement : List Char :=
  "INSERT INTO members (phone) VALUES ('(202) 555-0100');".toList

/-- C2 (code bug): the tuple parse `\([^)]+\)` cuts the value-tuple at the
`)` inside the quoted phone value, so the recovered tuple list is not the
original tuple sequence and the emitted batch carries a truncated tuple. -/
theorem quoted_paren_cuts_tuple :
    findTuples phoneTuple = ["('(202)".toList] ∧
    (["('(202)".toList] : List (List Char)) ≠ [phoneTuple] ∧
    splitIntoBatches rawPhoneStatement 50 =
      ["INSERT INTO members (phone) VALUES\n('(202);".toList] := by
  refine ⟨by decide, by decide, by decide⟩

/-- A statement with no terminating `;`: the statement scan finds nothing. -/
def rawNoSemicolon : List Char :=
  "INSERT INTO members VALUES (1,2)".toList

/-- C7 counterexample: a malformed statement is dropped with no error
signal of any kind — the nonempty malformed input produces the same empty
batch list as the empty input, and the function returns normally. -/
theorem malformed_statement_silently_dropped :
    splitIntoBatches rawNoSemicolon 50 = [] ∧
    rawNoSemicolon ≠ [] ∧
    splitIntoBatches [] 50 = [] := by
  refine ⟨by decide, by decide, rfl⟩

/-- C7 (amended): re-partitioning signals no error on any input: text in
which the statement scan matches nothing contributes no batches and no
report, and a scanned statement whose header does not match the expected
shape is passed through unchanged as its own single batch; no ParseError
value or error path exists in the operation. -/
theorem no_parse_error_signal (s : List Char) (bs : Nat) :
    (findInserts s = [] → splitIntoBatches s bs = []) ∧
    (∀ ins ∈ findInserts s, matchHeader ins = none →
      (ins ++ [';']) ∈ splitIntoBatches s bs) := by
  constructor
  · intro h
    unfold splitIntoBatches
    rw [h]
    rfl
  · intro ins hins hnone
    unfold splitIntoBatches
    refine List.mem_flatMap.mpr ⟨ins, hins, ?_⟩
    rw [hnone]
    simp
